import Mathlib

/-!
Verification development for the "agentic-review" GitHub Action
(an AI pull-request reviewer).

The TypeScript sources are shallowly embedded here:

* a JavaScript string that the code immediately splits on `'\n'` is
  represented by a Lean `String`, split with `splitNl` (a direct model of
  `String.prototype.split('\n')`);
* per-line tests (`line.startsWith('@@')`, …) are modelled on the
  character list `String.data`;
* the hunk-header regular expression
  `@@ -\d+(?:,\d+)? \+(\d+)(?:,\d+)? @@` is modelled by an explicit
  leftmost-match scanner (`findHeader`) returning the two integer
  captures;
* JavaScript numbers holding line counts / token counts are modelled by
  `Nat` (they are non-negative integers in every modelled code path);
* fallible operations (`JSON.parse`, position lookup) return `Option`.

Every definition is translated from the repository sources
(`src/services/github-service.ts`, `src/services/openai-service.ts`,
`src/services/code-review-service.ts`, `src/utils/config.ts`,
`src/config/default-config.ts`); definitions whose doc comment says so
model external library behaviour (`JSON.parse`) or restate the
specification's wording for comparison.
-/

/-- Model of JavaScript `c` being an ASCII decimal digit (`\d`). -/
def isDigitCh (c : Char) : Bool := c.isDigit

/-- Numeric value of a non-empty run of decimal digits, as computed by
JavaScript `parseInt(run, 10)`. -/
def digitsVal (ds : List Char) : Nat :=
  ds.foldl (fun a c => 10 * a + (c.toNat - '0'.toNat)) 0

/-- The decimal digit list of `n`, most significant first (reference
definition used to reason about `Nat.repr`). -/
def decDigits (n : Nat) : List Char :=
  if h : n < 10 then [Nat.digitChar n]
  else decDigits (n / 10) ++ [Nat.digitChar (n % 10)]
  decreasing_by
    exact Nat.div_lt_self (by omega) (by omega)

theorem decDigits_ne_nil (n : Nat) : decDigits n ≠ [] := by
  rw [decDigits]
  split <;> simp

theorem digitChar_isDigit {m : Nat} (h : m < 10) :
    (Nat.digitChar m).isDigit = true := by
  interval_cases m <;> decide

theorem decDigits_all_digit (n : Nat) : ∀ c ∈ decDigits n, isDigitCh c = true := by
  induction n using Nat.strong_induction_on with
  | _ n ih =>
    rw [decDigits]
    split
    · simp only [List.mem_singleton]
      rintro c rfl
      exact digitChar_isDigit (by omega)
    · intro c hc
      rcases List.mem_append.1 hc with h | h
      · exact ih (n / 10) (Nat.div_lt_self (by omega) (by omega)) c h
      · simp only [List.mem_singleton] at h
        subst h
        exact digitChar_isDigit (Nat.mod_lt _ (by omega))

theorem digitsVal_digitChar {m : Nat} (h : m < 10) :
    '0'.toNat + m = (Nat.digitChar m).toNat := by
  interval_cases m <;> decide

theorem digitsVal_append_digit (ds : List Char) {m : Nat} (h : m < 10) :
    digitsVal (ds ++ [Nat.digitChar m]) = 10 * digitsVal ds + m := by
  simp only [digitsVal, List.foldl_append, List.foldl_cons, List.foldl_nil]
  have := digitsVal_digitChar h
  omega

theorem digitsVal_decDigits (n : Nat) : digitsVal (decDigits n) = n := by
  induction n using Nat.strong_induction_on with
  | _ n ih =>
    rw [decDigits]
    split
    · next h =>
      simp only [digitsVal, List.foldl_cons, List.foldl_nil]
      have := digitsVal_digitChar h
      omega
    · next h =>
      rw [digitsVal_append_digit _ (Nat.mod_lt _ (by omega)),
        ih (n / 10) (Nat.div_lt_self (by omega) (by omega))]
      omega

/-- Core's fuelled digit printer agrees with `decDigits` (with the
accumulator appended) once the fuel exceeds the number. -/
theorem toDigitsCore_eq_decDigits :
    ∀ (fuel n : Nat) (ds : List Char), n < fuel →
      Nat.toDigitsCore 10 fuel n ds = decDigits n ++ ds := by
  intro fuel
  induction fuel with
  | zero => intro n ds h; omega
  | succ fuel ih =>
    intro n ds h
    rw [Nat.toDigitsCore]
    split
    · next h10 =>
      rw [decDigits]
      have h9 : n < 10 := by
        rcases Nat.lt_or_ge n 10 with h' | h'
        · exact h'
        · exact absurd h10 (by have := Nat.div_le_div_right (c := 10) h'; omega)
      rw [dif_pos h9]
      have : n % 10 = n := Nat.mod_eq_of_lt h9
      simp [this]
    · next h10 =>
      have hlt : n / 10 < fuel := by
        have h1 : 0 < n / 10 := Nat.pos_of_ne_zero h10
        have h2 : n / 10 < n := Nat.div_lt_self (by omega) (by omega)
        omega
      rw [ih (n / 10) _ hlt]
      conv_rhs => rw [decDigits]
      have h9 : ¬ n < 10 := by
        intro h'
        exact h10 (Nat.div_eq_of_lt h')
      rw [dif_neg h9]
      simp

/-- `Nat.repr` produces exactly the digit list `decDigits`. -/
theorem repr_data (n : Nat) : (Nat.repr n).data = decDigits n := by
  show (List.asString (Nat.toDigits 10 n)).data = decDigits n
  rw [Nat.toDigits, toDigitsCore_eq_decDigits (n + 1) n [] (Nat.lt_succ_self n)]
  simp [List.asString]

/-- Model of JavaScript `String.prototype.split('\n')` at the character
level: cut the character list at every `'\n'`. -/
def splitNlChars : List Char → List (List Char)
  | [] => [[]]
  | c :: cs =>
    if c = '\n' then [] :: splitNlChars cs
    else
      match splitNlChars cs with
      | [] => [[c]]
      | p :: ps => (c :: p) :: ps

/-- Model of JavaScript `patch.split('\n')`. -/
def splitNl (s : String) : List String :=
  (splitNlChars s.data).map (fun cs => ⟨cs⟩)

/-- Model of JavaScript `line.startsWith(p)` (true when `p.data` is an
initial segment of `l.data`). -/
def startsWithStr (l p : String) : Bool :=
  p.data.isPrefixOf l.data

/-- Model of a character in JavaScript's `\s`/trim whitespace class
(the sources only ever meet ASCII whitespace). -/
def isJsWhite (c : Char) : Bool := c.isWhitespace

/-- `true` iff the string is empty after JavaScript `trim()`, modelling
the `patch.trim() === ''` test. -/
def isBlankStr (s : String) : Bool := s.data.all isJsWhite

/-- Model of JavaScript `line.substring(1)` on the (ASCII) patch lines. -/
def dropOneChar (l : String) : String := ⟨l.data.drop 1⟩

/-- Attempt the optional regex group `(?:,\d+)?` at `r` greedily and run
the continuation `k` on the remainder; on failure fall back to running
`k` on `r` itself (mirroring the regex engine's backtracking). -/
def tryOptNum (r : List Char) (k : List Char → Option (Nat × Nat)) :
    Option (Nat × Nat) :=
  (match r with
   | ',' :: r2 =>
     let ds := r2.takeWhile isDigitCh
     if ds.isEmpty then none else k (r2.drop ds.length)
   | _ => none).orElse (fun _ => k r)

/-- Try to match `@@ -\d+(?:,\d+)? \+(\d+)(?:,\d+)? @@` at the head of
`cs`, returning the old-start and new-start integer captures. -/
def matchHeaderAt (cs : List Char) : Option (Nat × Nat) :=
  match cs with
  | '@' :: '@' :: ' ' :: '-' :: rest =>
    let ds1 := rest.takeWhile isDigitCh
    if ds1.isEmpty then none
    else
      tryOptNum (rest.drop ds1.length) (fun r =>
        match r with
        | ' ' :: '+' :: r2 =>
          let ds2 := r2.takeWhile isDigitCh
          if ds2.isEmpty then none
          else
            tryOptNum (r2.drop ds2.length) (fun r3 =>
              match r3 with
              | ' ' :: '@' :: '@' :: _ => some (digitsVal ds1, digitsVal ds2)
              | _ => none)
        | _ => none)
  | _ => none

/-- Leftmost match of the hunk-header pattern anywhere in the character
list (JavaScript `line.match(...)` semantics). -/
def findHeader : List Char → Option (Nat × Nat)
  | [] => none
  | c :: rest => (matchHeaderAt (c :: rest)).orElse (fun _ => findHeader rest)

/-- The `+(\d+)` capture (new-file start line) of the first hunk-header
match in `line`, i.e. `parseInt(match[1], 10)` in
`github-service.ts` (`match` of `@@ -\d+(?:,\d+)? \+(\d+)(?:,\d+)? @@`). -/
def matchHunkHeader (line : String) : Option Nat :=
  (findHeader line.data).map (fun p => p.2)

/-- The `-(\d+)` (old-file start line) of the first hunk-header match in
`line`; used only by the specification-derived definition of old-file
deletion numbering. -/
def matchHunkHeaderOld (line : String) : Option Nat :=
  (findHeader line.data).map (fun p => p.1)

example : matchHunkHeader "@@ -1,3 +1,5 @@" = some 1 := by decide
example : matchHunkHeader "@@ -5,2 +10,1 @@" = some 10 := by decide
example : matchHunkHeaderOld "@@ -5,2 +10,1 @@" = some 5 := by decide
example : matchHunkHeader "@@ junk @@" = none := by decide
example : matchHunkHeader "@@ -7 +9 @@ end" = some 9 := by decide
example : splitNl "a\nb" = ["a", "b"] := by decide
example : splitNl "" = [""] := by decide

/-! ## Change-set extractor (`extractChangedContent`, github-service.ts 311-376) -/

/-- `changeMap` of `extractChangedContent`: new-file line numbers pushed
for `+` lines and the counter values pushed for `-` lines. -/
structure ChangeMap where
  additions : List Nat
  deletions : List Nat
deriving DecidableEq

/-- One parsed hunk as built by `extractChangedContent`: the matched
`newStart` and the `content` array whose first entry is the raw header
line, followed by the rendered `"<n>: <text>"` lines. -/
structure Hunk where
  startLine : Nat
  content : List String
deriving DecidableEq

/-- Result of the `extractChangedContent` scanning loop. -/
structure ExtractOut where
  hunks : List Hunk
  adds : List Nat
  dels : List Nat
deriving DecidableEq

/-- The rendered addition line `"${currentLineNumber}: ${line.substring(1)}"`. -/
def numberedLine (n : Nat) (l : String) : String :=
  Nat.repr n ++ ": " ++ dropOneChar l

/-- The scanning loop of `extractChangedContent`: `cur` is the hunk being
built (`currentHunk`), `n` the running new-file counter
(`currentLineNumber`). -/
def exHunks : List String → Option Hunk → Nat → ExtractOut
  | [], cur, _ => ⟨cur.toList, [], []⟩
  | l :: ls, cur, n =>
    if startsWithStr l "@@" then
      match matchHunkHeader l with
      | some s =>
        let r := exHunks ls (some ⟨s, [l]⟩) s
        ⟨cur.toList ++ r.hunks, r.adds, r.dels⟩
      | none => exHunks ls cur n
    else
      match cur with
      | none => exHunks ls none n
      | some hk =>
        if startsWithStr l "+" && !(startsWithStr l "+++") then
          let r := exHunks ls (some ⟨hk.startLine, hk.content ++ [numberedLine n l]⟩) (n + 1)
          ⟨r.hunks, n :: r.adds, r.dels⟩
        else if startsWithStr l "-" && !(startsWithStr l "---") then
          let r := exHunks ls (some hk) n
          ⟨r.hunks, r.adds, n :: r.dels⟩
        else if !(startsWithStr l "---") && !(startsWithStr l "+++") then
          exHunks ls (some hk) (n + 1)
        else
          exHunks ls (some hk) n

/-- The per-hunk marker `"@@ Starting at line ${hunk.startLine} @@"`. -/
def markerLine (s : Nat) : String :=
  "@@ Starting at line " ++ Nat.repr s ++ " @@"

/-- One hunk's rendered block
`"@@ Starting at line ${s} @@\n" + content.slice(1).join('\n')`. -/
def hunkBlock (h : Hunk) : String :=
  markerLine h.startLine ++ "\n" ++ String.intercalate "\n" h.content.tail

/-- `extractChangedContent(patch)`: the rendered changed-content text and
the change map (github-service.ts, first class variant). -/
def extractChangedContent (patch : String) : String × ChangeMap :=
  let r := exHunks (splitNl patch) none 0
  (String.intercalate "\n\n" (r.hunks.map hunkBlock), ⟨r.adds, r.dels⟩)

/-- The individual text lines of one rendered hunk block (`hunkBlock`
splits into exactly these at `'\n'`). -/
def blockLines (h : Hunk) : List String :=
  markerLine h.startLine :: (if h.content.tail.isEmpty then [""] else h.content.tail)

/-- Join line blocks with one empty line between consecutive blocks,
mirroring the `join('\n\n')` between rendered hunks. -/
def joinBlocks : List (List String) → List String
  | [] => []
  | [b] => b
  | b :: bs => b ++ "" :: joinBlocks bs

/-- The individual text lines of the rendered `changedContent`. -/
def changedContentLines (patch : String) : List String :=
  joinBlocks ((exHunks (splitNl patch) none 0).hunks.map blockLines)

/-- Leading line-number tag of a rendered line: `some n` iff the
character list starts with a non-empty digit run followed by `": "`,
`n` being the run's value. -/
def numTagChars (cs : List Char) : Option Nat :=
  match cs.takeWhile isDigitCh, cs.dropWhile isDigitCh with
  | [], _ => none
  | ds, ':' :: ' ' :: _ => some (digitsVal ds)
  | _, _ => none

/-- Leading line-number tag of a rendered line (string form). -/
def numTag (l : String) : Option Nat := numTagChars l.data

example : numTag "12: const x = 5;" = some 12 := by decide
example : numTag "@@ Starting at line 3 @@" = none := by decide
example : numTag "" = none := by decide
example : numTag "12:x" = none := by decide

example :
    (extractChangedContent "@@ -1,3 +1,5 @@\n function f() \x7b\n-  return 1;\n+  // todo\n+  const r = g();\n+  return r;\n \x7d\n").2
      = ⟨[2, 3, 4], [2]⟩ := by decide

theorem intercalate_go_data (s : String) :
    ∀ (as : List String) (acc : String),
      (String.intercalate.go acc s as).data
        = acc.data ++ (as.map (fun a => s.data ++ a.data)).join := by
  intro as
  induction as with
  | nil => intro acc; simp [String.intercalate.go]
  | cons a as ih =>
    intro acc
    rw [String.intercalate.go, ih]
    simp [String.data_append]

theorem intercalate_data (s a : String) (as : List String) :
    (String.intercalate s (a :: as)).data
      = a.data ++ (as.map (fun b => s.data ++ b.data)).join := by
  rw [String.intercalate, intercalate_go_data]

theorem intercalate_cons_ne (s x : String) (xs : List String) (h : xs ≠ []) :
    (String.intercalate s (x :: xs)).data
      = x.data ++ s.data ++ (String.intercalate s xs).data := by
  cases xs with
  | nil => exact absurd rfl h
  | cons y ys => simp [intercalate_data]

theorem intercalate_append_ne (s : String) :
    ∀ (xs ys : List String), xs ≠ [] → ys ≠ [] →
      (String.intercalate s (xs ++ ys)).data
        = (String.intercalate s xs).data ++ s.data ++ (String.intercalate s ys).data := by
  intro xs
  induction xs with
  | nil => intro ys h; exact absurd rfl h
  | cons x xs ih =>
    intro ys _ hy
    cases xs with
    | nil =>
      rw [List.singleton_append, intercalate_cons_ne s x ys hy]
      rfl
    | cons x' xs' =>
      rw [List.cons_append, intercalate_cons_ne s x ((x' :: xs') ++ ys) (by simp),
        ih ys (by simp) hy, intercalate_cons_ne s x (x' :: xs') (by simp)]
      simp

theorem hunkBlock_eq (h : Hunk) :
    hunkBlock h = String.intercalate "\n" (blockLines h) := by
  apply String.ext
  unfold hunkBlock blockLines
  cases htail : h.content.tail with
  | nil =>
    simp [intercalate_data, String.data_append,
      show ("\n" : String).data = ['\n'] from rfl,
      show ("\n".intercalate []).data = [] from rfl]
  | cons t ts => simp [intercalate_data, String.data_append]

theorem joinBlocks_ne_nil (b : List String) (bs : List (List String)) (hb : b ≠ []) :
    joinBlocks (b :: bs) ≠ [] := by
  cases bs with
  | nil => simpa [joinBlocks] using hb
  | cons b' bs' => simp [joinBlocks, hb]

theorem intercalate_blocks :
    ∀ (bs : List (List String)), (∀ b ∈ bs, b ≠ []) →
      (String.intercalate "\n\n" (bs.map (String.intercalate "\n"))).data
        = (String.intercalate "\n" (joinBlocks bs)).data := by
  intro bs
  induction bs with
  | nil => intro _; rfl
  | cons b bs ih =>
    intro hne
    cases bs with
    | nil => rfl
    | cons b' bs' =>
      have hb : b ≠ [] := hne b (by simp)
      have hb' : b' ≠ [] := hne b' (by simp)
      have hjb : joinBlocks (b' :: bs') ≠ [] := joinBlocks_ne_nil b' bs' hb'
      rw [List.map_cons, intercalate_cons_ne _ _ _ (by simp),
        ih (fun x hx => hne x (by simp [hx]))]
      show _ = (String.intercalate "\n" (b ++ "" :: joinBlocks (b' :: bs'))).data
      rw [intercalate_append_ne _ b ("" :: joinBlocks (b' :: bs')) hb (by simp),
        intercalate_cons_ne _ "" _ hjb]
      simp

theorem numTagChars_cons_nonDigit {c : Char} (hc : isDigitCh c = false) (cs : List Char) :
    numTagChars (c :: cs) = none := by
  unfold numTagChars
  simp [List.takeWhile_cons, hc]

theorem takeWhile_append_all {α : Type} {p : α → Bool} :
    ∀ {xs ys : List α}, (∀ x ∈ xs, p x = true) →
      (xs ++ ys).takeWhile p = xs ++ ys.takeWhile p := by
  intro xs
  induction xs with
  | nil => intro ys _; rfl
  | cons x xs ih =>
    intro ys hall
    have hx : p x = true := hall x (by simp)
    rw [List.cons_append, List.takeWhile_cons, hx,
      ih (fun z hz => hall z (by simp [hz]))]
    simp

theorem dropWhile_append_all {α : Type} {p : α → Bool} :
    ∀ {xs ys : List α}, (∀ x ∈ xs, p x = true) →
      (xs ++ ys).dropWhile p = ys.dropWhile p := by
  intro xs
  induction xs with
  | nil => intro ys _; rfl
  | cons x xs ih =>
    intro ys hall
    rw [List.cons_append, List.dropWhile_cons_of_pos (hall x (by simp)),
      ih (fun z hz => hall z (by simp [hz]))]

theorem numTagChars_numbered (n : Nat) (rest : List Char) :
    numTagChars (decDigits n ++ ':' :: ' ' :: rest) = some n := by
  unfold numTagChars
  rw [takeWhile_append_all (decDigits_all_digit n),
    dropWhile_append_all (decDigits_all_digit n)]
  rw [List.takeWhile_cons_of_neg (by decide), List.dropWhile_cons_of_neg (by decide)]
  cases hd : decDigits n with
  | nil => exact absurd hd (decDigits_ne_nil n)
  | cons d ds =>
    show some (digitsVal (d :: ds ++ [])) = some n
    rw [List.append_nil, ← hd, digitsVal_decDigits]

theorem numTag_numberedLine (n : Nat) (l : String) :
    numTag (numberedLine n l) = some n := by
  unfold numTag numberedLine
  have hdata : (Nat.repr n ++ ": " ++ dropOneChar l).data
      = decDigits n ++ ':' :: ' ' :: (dropOneChar l).data := by
    have h2 : (": " : String).data = [':', ' '] := rfl
    simp [String.data_append, repr_data, h2]
  rw [hdata, numTagChars_numbered]

theorem numTag_marker (s : Nat) : numTag (markerLine s) = none := by
  unfold numTag markerLine
  have hdata : ("@@ Starting at line " ++ Nat.repr s ++ " @@").data
      = '@' :: ("@ Starting at line ".data ++ (Nat.repr s).data ++ (" @@" : String).data) := by
    have h1 : ("@@ Starting at line " : String).data = '@' :: "@ Starting at line ".data := rfl
    simp [String.data_append, h1]
  rw [hdata, numTagChars_cons_nonDigit (by decide)]

theorem numTag_empty : numTag "" = none := rfl

/-- The line numbers carried by one hunk's rendered addition lines. -/
def tailNums (h : Hunk) : List Nat := h.content.tail.filterMap numTag

theorem filterMap_blockLines (h : Hunk) :
    (blockLines h).filterMap numTag = tailNums h := by
  unfold blockLines tailNums
  cases htail : h.content.tail with
  | nil => simp [numTag_marker, numTag_empty]
  | cons t ts => simp [numTag_marker]

theorem filterMap_joinBlocks :
    ∀ (hs : List Hunk),
      (joinBlocks (hs.map blockLines)).filterMap numTag = (hs.map tailNums).join := by
  intro hs
  induction hs with
  | nil => rfl
  | cons h hs ih =>
    cases hs with
    | nil => simp [joinBlocks, filterMap_blockLines]
    | cons h' hs' =>
      show (blockLines h ++ "" :: joinBlocks ((h' :: hs').map blockLines)).filterMap numTag = _
      rw [List.filterMap_append, filterMap_blockLines, List.filterMap_cons]
      simp only [numTag_empty]
      rw [ih]
      simp

/-- The rendered addition-line numbers still pending in the
currently-open hunk. -/
def pendingNums : Option Hunk → List Nat
  | none => []
  | some hk => tailNums hk

theorem tail_append_singleton {α : Type} (c : List α) (x : α) (hc : c ≠ []) :
    (c ++ [x]).tail = c.tail ++ [x] := by
  cases c with
  | nil => exact absurd rfl hc
  | cons a as => rfl

theorem exHunks_nums :
    ∀ (ls : List String) (cur : Option Hunk) (n : Nat),
      (∀ hk, cur = some hk → hk.content ≠ []) →
      ((exHunks ls cur n).hunks.map tailNums).join
        = pendingNums cur ++ (exHunks ls cur n).adds := by
  intro ls
  induction ls with
  | nil =>
    intro cur n _
    cases cur with
    | none => rfl
    | some hk => simp [exHunks, pendingNums]
  | cons l ls ih =>
    intro cur n hcur
    simp only [exHunks]
    split
    · next hAt =>
      cases hmh : matchHunkHeader l with
      | some s =>
        simp only [hmh]
        have ihs := ih (some ⟨s, [l]⟩) s (by intro hk he; cases he; simp)
        simp only [List.map_append, List.join_append, ihs]
        have : pendingNums (some ⟨s, [l]⟩) = [] := by simp [pendingNums, tailNums]
        rw [this, List.nil_append]
        cases cur with
        | none => simp [pendingNums]
        | some hk => simp [pendingNums]
      | none =>
        simp only [hmh]
        exact ih cur n hcur
    · next hAt =>
      split
      · exact ih none n (by intro hk he; cases he)
      · next hk =>
        have hkne : hk.content ≠ [] := hcur hk rfl
        have hksome : ∀ hk', some hk = some hk' → hk'.content ≠ [] := by
          intro hk' he
          cases he
          exact hkne
        split
        · next hplus =>
          have ihs := ih (some ⟨hk.startLine, hk.content ++ [numberedLine n l]⟩) (n + 1)
            (by intro hk' he; cases he; simp)
          simp only [ihs, pendingNums, tailNums]
          rw [tail_append_singleton _ _ hkne, List.filterMap_append]
          simp [numTag_numberedLine]
        · split
          · next hminus =>
            have ihs := ih (some hk) n hksome
            simpa using ihs
          · split
            · next hctx => exact ih (some hk) (n + 1) hksome
            · exact ih (some hk) n hksome

/-- C3: for every patch, the rendered changed-content text is the
newline-join of `changedContentLines`, and the line-number tags of those
rendered lines are exactly (in order and multiplicity, hence also in
count and membership) the entries of `changeMap.additions`. -/
theorem claimC3_line_accounting (patch : String) :
    (extractChangedContent patch).1
        = String.intercalate "\n" (changedContentLines patch)
      ∧ (changedContentLines patch).filterMap numTag
        = (extractChangedContent patch).2.additions := by
  constructor
  · apply String.ext
    show (String.intercalate "\n\n" ((exHunks (splitNl patch) none 0).hunks.map hunkBlock)).data = _
    have hmap : (exHunks (splitNl patch) none 0).hunks.map hunkBlock
        = ((exHunks (splitNl patch) none 0).hunks.map blockLines).map (String.intercalate "\n") := by
      rw [List.map_map]
      exact List.map_congr_left (fun h _ => hunkBlock_eq h)
    rw [hmap]
    exact intercalate_blocks _ (by
      intro b hb
      rcases List.mem_map.1 hb with ⟨h, _, rfl⟩
      simp [blockLines])
  · show (joinBlocks ((exHunks (splitNl patch) none 0).hunks.map blockLines)).filterMap numTag = _
    rw [filterMap_joinBlocks]
    exact exHunks_nums (splitNl patch) none 0 (by intro hk he; cases he)

/-! ## Diff position mapper (`calculatePositionFromLine`)

First class variant (github-service.ts 384-480): an exact pass over the
patch lines keeping a `currentLineNumber` / `diffPosition` pair, then a
nearest-hunk fallback pass over the headers. -/

/-- The exact-match pass: `cur` is `currentLineNumber`, `dpos` is
`diffPosition` (starting at 1). Returns the first position whose
addition/context line carries the target new-file line number. -/
def exactScan : List String → Nat → Nat → Nat → Option Nat
  | [], _, _, _ => none
  | l :: ls, target, cur, dpos =>
    if startsWithStr l "@@" then
      match matchHunkHeader l with
      | some s => exactScan ls target s (dpos + 1)
      | none => exactScan ls target cur (dpos + 1)
    else if startsWithStr l "+++" || startsWithStr l "---" then
      exactScan ls target cur (dpos + 1)
    else if startsWithStr l "+" then
      if cur = target then some dpos else exactScan ls target (cur + 1) (dpos + 1)
    else if startsWithStr l "-" then
      exactScan ls target cur (dpos + 1)
    else
      if cur = target then some dpos else exactScan ls target (cur + 1) (dpos + 1)

/-- JavaScript `Math.abs(hunkStart - lineNumber)` on integers. -/
def distNat (a b : Nat) : Nat := max a b - min a b

/-- The nearest-hunk fallback pass; `best` holds the smallest distance
and its header's diff position (`none` = `MAX_SAFE_INTEGER`, i.e. no
matched header yet); at the end the best header position + 1 is
returned (the `bestHunkPosition > 0` guard holds exactly when a header
matched, since positions start at 1). -/
def fallbackScan : List String → Nat → Nat → Option (Nat × Nat) → Option Nat
  | [], _, _, best => best.map (fun p => p.2 + 1)
  | l :: ls, target, dpos, best =>
    let best' :=
      if startsWithStr l "@@" then
        match matchHunkHeader l with
        | some s =>
          let d := distNat s target
          match best with
          | none => some (d, dpos)
          | some b => if d < b.1 then some (d, dpos) else best
        | none => best
      else best
    fallbackScan ls target (dpos + 1) best'

/-- `calculatePositionFromLine(patch, lineNumber)` (github-service.ts
384-480): `!patch` and `patch.trim() === ''` guards, the exact pass,
then the fallback pass. -/
def calculatePositionFromLine (patch : String) (lineNumber : Nat) : Option Nat :=
  if patch = "" then none
  else if isBlankStr patch then none
  else
    match exactScan (splitNl patch) lineNumber 0 1 with
    | some p => some p
    | none => fallbackScan (splitNl patch) lineNumber 1 none

/-- Second class variant of `calculatePositionFromLine`
(github-service.ts 959-1002): `positionInDiff` only starts counting once
a `'@@'`-prefixed line was seen (`foundHunk`), and there is no fallback
pass. -/
def calcPosScanV2 : List String → Nat → Nat → Nat → Bool → Option Nat
  | [], _, _, _, _ => none
  | l :: ls, target, cur, pos, found =>
    let found' := found || startsWithStr l "@@"
    let cur1 :=
      if startsWithStr l "@@" then
        match matchHunkHeader l with
        | some s => s
        | none => cur
      else cur
    if found' then
      if !(startsWithStr l "-") || startsWithStr l "---" then
        if (startsWithStr l "+" && !(startsWithStr l "+++"))
            || (!(startsWithStr l "+") && !(startsWithStr l "-") && !(startsWithStr l "@@")) then
          if cur1 = target then some (pos + 1)
          else calcPosScanV2 ls target (cur1 + 1) (pos + 1) found'
        else calcPosScanV2 ls target cur1 (pos + 1) found'
      else calcPosScanV2 ls target cur1 (pos + 1) found'
    else calcPosScanV2 ls target cur1 pos found'

/-- Second-variant `calculatePositionFromLine` (`!patch` guard, one scan,
no fallback). -/
def calculatePositionFromLineV2 (patch : String) (lineNumber : Nat) : Option Nat :=
  if patch = "" then none
  else calcPosScanV2 (splitNl patch) lineNumber 0 0 false

/-- The Scenario A patch of the specification. -/
def scenarioAPatch : String :=
  "@@ -1,3 +1,5 @@\n function f() \x7b\n-  return 1;\n+  // todo\n+  const r = g();\n+  return r;\n \x7d\n"

/-- C1 counterexample: on the Scenario A patch, requesting the position
of file line 3 (the `const r = g();` addition) does not return 4. -/
theorem claimC1_counterexample :
    calculatePositionFromLine scenarioAPatch 3 ≠ some 4 := by decide

/-- C1 amended: the mapper returns diff position 5 for file line 3 of
the Scenario A patch — the code counts the deleted line
`-  return 1;` as a diff-position tick as well (header=1, context=2,
deletion=3, `// todo`=4, `const r = g();`=5). -/
theorem claimC1_position :
    calculatePositionFromLine scenarioAPatch 3 = some 5 := by decide

/-- `true` iff some line of the patch contains a hunk-header match of
`@@ -<int>[,<int>] +<int>[,<int>] @@`. -/
def hasHunkHeader (patch : String) : Bool :=
  (splitNl patch).any (fun l => (matchHunkHeader l).isSome)

/-- `true` iff some line of the patch starts with `"@@"` (the weaker
test that flips the second variant's `foundHunk` flag). -/
def hasAtAtLine (patch : String) : Bool :=
  (splitNl patch).any (fun l => startsWithStr l "@@")

theorem exactScan_none_of_no_header :
    ∀ (ls : List String) (target cur dpos : Nat),
      (∀ l ∈ ls, matchHunkHeader l = none) → cur + ls.length ≤ target →
      exactScan ls target cur dpos = none := by
  intro ls
  induction ls with
  | nil => intro target cur dpos _ _; rfl
  | cons l ls ih =>
    intro target cur dpos hnone hlen
    have hl : matchHunkHeader l = none := hnone l (by simp)
    have hrest : ∀ l' ∈ ls, matchHunkHeader l' = none :=
      fun l' hl' => hnone l' (by simp [hl'])
    have hcur : cur ≠ target := by
      simp only [List.length_cons] at hlen
      omega
    have hlen' : cur + 1 + ls.length ≤ target := by
      simp only [List.length_cons] at hlen
      omega
    have hlen'' : cur + ls.length ≤ target := by omega
    simp only [exactScan, hl]
    split
    · exact ih target cur (dpos + 1) hrest hlen''
    · split
      · exact ih target cur (dpos + 1) hrest hlen''
      · split
        · exact ih target (cur + 1) (dpos + 1) hrest hlen'
        · split
          · exact ih target cur (dpos + 1) hrest hlen''
          · exact ih target (cur + 1) (dpos + 1) hrest hlen'

theorem fallbackScan_none_of_no_header :
    ∀ (ls : List String) (target dpos : Nat),
      (∀ l ∈ ls, matchHunkHeader l = none) →
      fallbackScan ls target dpos none = none := by
  intro ls
  induction ls with
  | nil => intro target dpos _; rfl
  | cons l ls ih =>
    intro target dpos hnone
    have hl : matchHunkHeader l = none := hnone l (by simp)
    simp only [fallbackScan, hl]
    split
    · exact ih target (dpos + 1) (fun l' hl' => hnone l' (by simp [hl']))
    · exact ih target (dpos + 1) (fun l' hl' => hnone l' (by simp [hl']))

theorem calcPosScanV2_none_of_no_atat :
    ∀ (ls : List String) (target cur pos : Nat),
      (∀ l ∈ ls, startsWithStr l "@@" = false) →
      calcPosScanV2 ls target cur pos false = none := by
  intro ls
  induction ls with
  | nil => intro target cur pos _; rfl
  | cons l ls ih =>
    intro target cur pos hno
    have hl : startsWithStr l "@@" = false := hno l (by simp)
    simp only [calcPosScanV2, hl, Bool.or_false, Bool.false_eq_true, if_false]
    exact ih target cur pos (fun l' hl' => hno l' (by simp [hl']))

/-- C4 counterexample: the patch `"a\nb"` contains no hunk-header line,
yet the mapper returns the integer position 2 for file line 1 (the
exact pass matches context lines even before any header). -/
theorem claimC4_counterexample :
    hasHunkHeader "a\nb" = false
      ∧ calculatePositionFromLine "a\nb" 1 = some 2 := by decide

/-- C4 amended: the empty patch always yields NOT_FOUND; a patch with no
matching hunk header yields NOT_FOUND in the first variant whenever the
requested line number is at least the number of patch lines (for
smaller numbers the exact pass may still match a context/addition
line, the fallback pass alone never fires); the second variant yields
NOT_FOUND for every line number when no line starts with `"@@"`. -/
theorem claimC4_no_header_not_found :
    (∀ n, calculatePositionFromLine "" n = none)
    ∧ (∀ n, calculatePositionFromLineV2 "" n = none)
    ∧ (∀ patch n, hasHunkHeader patch = false → (splitNl patch).length ≤ n →
        calculatePositionFromLine patch n = none)
    ∧ (∀ patch n, hasAtAtLine patch = false →
        calculatePositionFromLineV2 patch n = none) := by
  refine ⟨fun n => rfl, fun n => rfl, ?_, ?_⟩
  · intro patch n hno hlen
    unfold calculatePositionFromLine
    split
    · rfl
    · split
      · rfl
      · have hnone : ∀ l ∈ splitNl patch, matchHunkHeader l = none := by
          intro l hl
          have h2 := (List.any_eq_false).1 hno l hl
          exact Option.not_isSome_iff_eq_none.1 (by simpa using h2)
        rw [exactScan_none_of_no_header (splitNl patch) n 0 1 hnone (by omega)]
        exact fallbackScan_none_of_no_header (splitNl patch) n 1 hnone
  · intro patch n hno
    unfold calculatePositionFromLineV2
    split
    · rfl
    · exact calcPosScanV2_none_of_no_atat (splitNl patch) n 0 0
        (fun l hl => by simpa using (List.any_eq_false).1 hno l hl)

/-- C4 witness: the amended theorem instantiated at the empty patch, a
header-less two-line patch with line number 2, and a header-less
one-line patch for the second variant. -/
theorem claimC4_witness :
    calculatePositionFromLine "" 7 = none
    ∧ calculatePositionFromLine "a\nb" 2 = none
    ∧ calculatePositionFromLineV2 "x" 0 = none :=
  ⟨claimC4_no_header_not_found.1 7,
    claimC4_no_header_not_found.2.2.1 "a\nb" 2 (by decide) (by decide),
    claimC4_no_header_not_found.2.2.2 "x" 0 (by decide)⟩

/-! ## Position monotonicity (P2) -/

/-- The successive `currentLineNumber` values of the exact pass at the
lines it can match (addition and context lines), in scan order. -/
def scanValues : List String → Nat → List Nat
  | [], _ => []
  | l :: ls, cur =>
    if startsWithStr l "@@" then
      match matchHunkHeader l with
      | some s => scanValues ls s
      | none => scanValues ls cur
    else if startsWithStr l "+++" || startsWithStr l "---" then
      scanValues ls cur
    else if startsWithStr l "+" then
      cur :: scanValues ls (cur + 1)
    else if startsWithStr l "-" then
      scanValues ls cur
    else
      cur :: scanValues ls (cur + 1)

/-- The `currentLineNumber` values at addition (`+`) lines only. -/
def additionValues : List String → Nat → List Nat
  | [], _ => []
  | l :: ls, cur =>
    if startsWithStr l "@@" then
      match matchHunkHeader l with
      | some s => additionValues ls s
      | none => additionValues ls cur
    else if startsWithStr l "+++" || startsWithStr l "---" then
      additionValues ls cur
    else if startsWithStr l "+" then
      cur :: additionValues ls (cur + 1)
    else if startsWithStr l "-" then
      additionValues ls cur
    else
      additionValues ls (cur + 1)

/-- `posLt p q` holds iff both optional positions are present and the
first is strictly smaller. -/
def posLt : Option Nat → Option Nat → Bool
  | some x, some y => x < y
  | _, _ => false

theorem additionValues_sub_scanValues :
    ∀ (ls : List String) (cur x : Nat),
      x ∈ additionValues ls cur → x ∈ scanValues ls cur := by
  intro ls
  induction ls with
  | nil => intro cur x hx; simp [additionValues] at hx
  | cons l ls ih =>
    intro cur x hx
    simp only [additionValues] at hx
    simp only [scanValues]
    by_cases h1 : startsWithStr l "@@" = true
    · rw [if_pos h1] at hx
      rw [if_pos h1]
      cases hmh : matchHunkHeader l with
      | some s => rw [hmh] at hx; exact ih s x hx
      | none => rw [hmh] at hx; exact ih cur x hx
    · rw [if_neg h1] at hx
      rw [if_neg h1]
      by_cases h2 : (startsWithStr l "+++" || startsWithStr l "---") = true
      · rw [if_pos h2] at hx
        rw [if_pos h2]
        exact ih cur x hx
      · rw [if_neg h2] at hx
        rw [if_neg h2]
        by_cases h3 : startsWithStr l "+" = true
        · rw [if_pos h3] at hx
          rw [if_pos h3]
          rcases List.mem_cons.1 hx with h | h
          · simp [h]
          · exact List.mem_cons_of_mem _ (ih (cur + 1) x h)
        · rw [if_neg h3] at hx
          rw [if_neg h3]
          by_cases h4 : startsWithStr l "-" = true
          · rw [if_pos h4] at hx
            rw [if_pos h4]
            exact ih cur x hx
          · rw [if_neg h4] at hx
            rw [if_neg h4]
            exact List.mem_cons_of_mem _ (ih (cur + 1) x hx)

theorem exactScan_of_mem :
    ∀ (ls : List String) (t cur dpos : Nat),
      t ∈ scanValues ls cur →
      ∃ p, exactScan ls t cur dpos = some p ∧ dpos ≤ p := by
  intro ls
  induction ls with
  | nil => intro t cur dpos ht; simp [scanValues] at ht
  | cons l ls ih =>
    intro t cur dpos ht
    simp only [scanValues] at ht
    simp only [exactScan]
    by_cases h1 : startsWithStr l "@@" = true
    · rw [if_pos h1] at ht
      rw [if_pos h1]
      cases hmh : matchHunkHeader l with
      | some s =>
        rw [hmh] at ht
        obtain ⟨p, hp, hle⟩ := ih t s (dpos + 1) ht
        exact ⟨p, hp, by omega⟩
      | none =>
        rw [hmh] at ht
        obtain ⟨p, hp, hle⟩ := ih t cur (dpos + 1) ht
        exact ⟨p, hp, by omega⟩
    · rw [if_neg h1] at ht
      rw [if_neg h1]
      by_cases h2 : (startsWithStr l "+++" || startsWithStr l "---") = true
      · rw [if_pos h2] at ht
        rw [if_pos h2]
        obtain ⟨p, hp, hle⟩ := ih t cur (dpos + 1) ht
        exact ⟨p, hp, by omega⟩
      · rw [if_neg h2] at ht
        rw [if_neg h2]
        by_cases h3 : startsWithStr l "+" = true
        · rw [if_pos h3] at ht
          rw [if_pos h3]
          by_cases hct : cur = t
          · exact ⟨dpos, by rw [if_pos hct], Nat.le_refl _⟩
          · have ht' : t ∈ scanValues ls (cur + 1) := by
              rcases List.mem_cons.1 ht with h | h
              · exact absurd h.symm hct
              · exact h
            obtain ⟨p, hp, hle⟩ := ih t (cur + 1) (dpos + 1) ht'
            exact ⟨p, by rw [if_neg hct]; exact hp, by omega⟩
        · rw [if_neg h3] at ht
          rw [if_neg h3]
          by_cases h4 : startsWithStr l "-" = true
          · rw [if_pos h4] at ht
            rw [if_pos h4]
            obtain ⟨p, hp, hle⟩ := ih t cur (dpos + 1) ht
            exact ⟨p, hp, by omega⟩
          · rw [if_neg h4] at ht
            rw [if_neg h4]
            by_cases hct : cur = t
            · exact ⟨dpos, by rw [if_pos hct], Nat.le_refl _⟩
            · have ht' : t ∈ scanValues ls (cur + 1) := by
                rcases List.mem_cons.1 ht with h | h
                · exact absurd h.symm hct
                · exact h
              obtain ⟨p, hp, hle⟩ := ih t (cur + 1) (dpos + 1) ht'
              exact ⟨p, by rw [if_neg hct]; exact hp, by omega⟩

theorem exactScan_mono :
    ∀ (ls : List String) (cur : Nat),
      (scanValues ls cur).Sorted (· < ·) →
      ∀ a b dpos, a < b → a ∈ scanValues ls cur → b ∈ scanValues ls cur →
      ∃ pa pb, exactScan ls a cur dpos = some pa
        ∧ exactScan ls b cur dpos = some pb ∧ pa < pb := by
  intro ls
  induction ls with
  | nil => intro cur _ a b dpos _ ha _; simp [scanValues] at ha
  | cons l ls ih =>
    intro cur hsorted a b dpos hab ha hb
    simp only [scanValues] at hsorted ha hb
    simp only [exactScan]
    by_cases h1 : startsWithStr l "@@" = true
    · rw [if_pos h1] at hsorted ha hb
      rw [if_pos h1, if_pos h1]
      cases hmh : matchHunkHeader l with
      | some s =>
        rw [hmh] at hsorted ha hb
        exact ih s hsorted a b (dpos + 1) hab ha hb
      | none =>
        rw [hmh] at hsorted ha hb
        exact ih cur hsorted a b (dpos + 1) hab ha hb
    · rw [if_neg h1] at hsorted ha hb
      rw [if_neg h1, if_neg h1]
      by_cases h2 : (startsWithStr l "+++" || startsWithStr l "---") = true
      · rw [if_pos h2] at hsorted ha hb
        rw [if_pos h2, if_pos h2]
        exact ih cur hsorted a b (dpos + 1) hab ha hb
      · rw [if_neg h2] at hsorted ha hb
        rw [if_neg h2, if_neg h2]
        by_cases h3 : startsWithStr l "+" = true
        · rw [if_pos h3] at hsorted ha hb
          rw [if_pos h3, if_pos h3]
          rw [List.sorted_cons] at hsorted
          obtain ⟨hlt, hsorted'⟩ := hsorted
          rcases List.mem_cons.1 ha with hac | hatail
          · have hbne : cur ≠ b := by omega
            have hbtail : b ∈ scanValues ls (cur + 1) := by
              rcases List.mem_cons.1 hb with h | h
              · exact absurd h.symm hbne
              · exact h
            obtain ⟨pb, hpb, hpble⟩ := exactScan_of_mem ls b (cur + 1) (dpos + 1) hbtail
            exact ⟨dpos, pb, by rw [if_pos hac.symm], by rw [if_neg hbne]; exact hpb, by omega⟩
          · have hane : cur ≠ a := by
              intro h
              have := hlt a hatail
              omega
            have hbne : cur ≠ b := by
              intro h
              have := hlt a hatail
              omega
            have hbtail : b ∈ scanValues ls (cur + 1) := by
              rcases List.mem_cons.1 hb with h | h
              · exact absurd h.symm hbne
              · exact h
            obtain ⟨pa, pb, hpa, hpb, hlt'⟩ :=
              ih (cur + 1) hsorted' a b (dpos + 1) hab hatail hbtail
            exact ⟨pa, pb, by rw [if_neg hane]; exact hpa, by rw [if_neg hbne]; exact hpb, hlt'⟩
        · rw [if_neg h3] at hsorted ha hb
          rw [if_neg h3, if_neg h3]
          by_cases h4 : startsWithStr l "-" = true
          · rw [if_pos h4] at hsorted ha hb
            rw [if_pos h4, if_pos h4]
            exact ih cur hsorted a b (dpos + 1) hab ha hb
          · rw [if_neg h4] at hsorted ha hb
            rw [if_neg h4, if_neg h4]
            rw [List.sorted_cons] at hsorted
            obtain ⟨hlt, hsorted'⟩ := hsorted
            rcases List.mem_cons.1 ha with hac | hatail
            · have hbne : cur ≠ b := by omega
              have hbtail : b ∈ scanValues ls (cur + 1) := by
                rcases List.mem_cons.1 hb with h | h
                · exact absurd h.symm hbne
                · exact h
              obtain ⟨pb, hpb, hpble⟩ := exactScan_of_mem ls b (cur + 1) (dpos + 1) hbtail
              exact ⟨dpos, pb, by rw [if_pos hac.symm], by rw [if_neg hbne]; exact hpb, by omega⟩
            · have hane : cur ≠ a := by
                intro h
                have := hlt a hatail
                omega
              have hbne : cur ≠ b := by
                intro h
                have := hlt a hatail
                omega
              have hbtail : b ∈ scanValues ls (cur + 1) := by
                rcases List.mem_cons.1 hb with h | h
                · exact absurd h.symm hbne
                · exact h
              obtain ⟨pa, pb, hpa, hpb, hlt'⟩ :=
                ih (cur + 1) hsorted' a b (dpos + 1) hab hatail hbtail
              exact ⟨pa, pb, by rw [if_neg hane]; exact hpa, by rw [if_neg hbne]; exact hpb, hlt'⟩

/-- C6 amended: on a non-empty, non-blank patch whose exact-pass line
numbering is strictly increasing over the whole scan (true of every
well-formed diff, whose hunks are non-overlapping and increasing — the
counterexample shows the claim fails without this), the mapper returns
positions for any two addition line numbers `a < b`, with the position
of `a` strictly below that of `b`. -/
theorem claimC6_monotone (patch : String) (a b : Nat)
    (hne : patch ≠ "") (hnb : isBlankStr patch = false)
    (hsorted : (scanValues (splitNl patch) 0).Sorted (· < ·))
    (hab : a < b)
    (ha : a ∈ additionValues (splitNl patch) 0)
    (hb : b ∈ additionValues (splitNl patch) 0) :
    posLt (calculatePositionFromLine patch a) (calculatePositionFromLine patch b) = true := by
  obtain ⟨pa, pb, hpa, hpb, hlt⟩ :=
    exactScan_mono (splitNl patch) 0 hsorted a b 1 hab
      (additionValues_sub_scanValues _ _ _ ha)
      (additionValues_sub_scanValues _ _ _ hb)
  unfold calculatePositionFromLine
  rw [if_neg hne, if_neg (by simp [hnb]), if_neg hne, if_neg (by simp [hnb]), hpa, hpb]
  simpa [posLt] using hlt

/-- The overlapping-hunk patch used to refute C6 as stated: the second
hunk restarts the new-file numbering below the first hunk's range. -/
def c6Patch : String :=
  "@@ -1,0 +10,2 @@\n+p\n+q\n@@ -1,0 +1,15 @@\n+a\n+b\n+c\n+d\n+e\n+f\n+g\n+h\n+i\n+j\n+k\n"

/-- C6 counterexample: on `c6Patch`, the file lines 1 and 11 are both
addition lines of the second hunk, yet the mapper puts line 11 at
position 3 (matched inside the first hunk) and line 1 at position 5,
so `1 < 11` does not map to increasing positions. -/
theorem claimC6_counterexample :
    1 ∈ additionValues (splitNl c6Patch) 0
    ∧ 11 ∈ additionValues (splitNl c6Patch) 0
    ∧ calculatePositionFromLine c6Patch 1 = some 5
    ∧ calculatePositionFromLine c6Patch 11 = some 3
    ∧ posLt (calculatePositionFromLine c6Patch 1) (calculatePositionFromLine c6Patch 11)
        = false := by decide

/-- C6 witness: the amended theorem applied to the Scenario A patch and
the addition lines 2 < 4. -/
theorem claimC6_witness :
    posLt (calculatePositionFromLine scenarioAPatch 2)
      (calculatePositionFromLine scenarioAPatch 4) = true :=
  claimC6_monotone scenarioAPatch 2 4 (by decide) (by decide) (by decide)
    (by decide) (by decide) (by decide)

/-! ## Deletion numbering (C5) -/

/-- The new-file running counter values recorded for deletion lines: a
minimal walk over the patch lines keeping only the counter state of
`extractChangedContent` (`started` = a hunk header has matched). -/
def specDelNewWalk : List String → Bool → Nat → List Nat
  | [], _, _ => []
  | l :: ls, started, n =>
    if startsWithStr l "@@" then
      match matchHunkHeader l with
      | some s => specDelNewWalk ls true s
      | none => specDelNewWalk ls started n
    else if started then
      if startsWithStr l "+" && !(startsWithStr l "+++") then
        specDelNewWalk ls started (n + 1)
      else if startsWithStr l "-" && !(startsWithStr l "---") then
        n :: specDelNewWalk ls started n
      else if !(startsWithStr l "---") && !(startsWithStr l "+++") then
        specDelNewWalk ls started (n + 1)
      else specDelNewWalk ls started n
    else specDelNewWalk ls started n

/-- The new-file line number in effect at each recorded deletion. -/
def specDeletionNewLines (patch : String) : List Nat :=
  specDelNewWalk (splitNl patch) false 0

/-- Modelled from the spec (§3 `ChangeMap`, §4.3): deletions recorded by
old-file line number — the hunk header's old-start counter, advanced by
deletion and context lines but not by additions. -/
def specDelOldWalk : List String → Bool → Nat → List Nat
  | [], _, _ => []
  | l :: ls, started, n =>
    if startsWithStr l "@@" then
      match matchHunkHeaderOld l with
      | some s => specDelOldWalk ls true s
      | none => specDelOldWalk ls started n
    else if started then
      if startsWithStr l "+" && !(startsWithStr l "+++") then
        specDelOldWalk ls started n
      else if startsWithStr l "-" && !(startsWithStr l "---") then
        n :: specDelOldWalk ls started (n + 1)
      else if !(startsWithStr l "---") && !(startsWithStr l "+++") then
        specDelOldWalk ls started (n + 1)
      else specDelOldWalk ls started n
    else specDelOldWalk ls started n

/-- Modelled from the spec: the old-file line numbers of the deleted
lines of the patch. -/
def specDeletionOldLines (patch : String) : List Nat :=
  specDelOldWalk (splitNl patch) false 0

theorem exHunks_dels :
    ∀ (ls : List String) (cur : Option Hunk) (n : Nat),
      (exHunks ls cur n).dels = specDelNewWalk ls cur.isSome n := by
  intro ls
  induction ls with
  | nil => intro cur n; rfl
  | cons l ls ih =>
    intro cur n
    simp only [exHunks, specDelNewWalk]
    by_cases h1 : startsWithStr l "@@" = true
    · rw [if_pos h1, if_pos h1]
      cases hmh : matchHunkHeader l with
      | some s => exact ih (some ⟨s, [l]⟩) s
      | none => exact ih cur n
    · rw [if_neg h1, if_neg h1]
      cases cur with
      | none =>
        dsimp only
        rw [if_neg (by simp)]
        exact ih none n
      | some hk =>
        dsimp only
        simp only [Option.isSome_some, if_true]
        by_cases h3 : (startsWithStr l "+" && !(startsWithStr l "+++")) = true
        · rw [if_pos h3, if_pos h3]
          exact ih (some ⟨hk.startLine, hk.content ++ [numberedLine n l]⟩) (n + 1)
        · rw [if_neg h3, if_neg h3]
          by_cases h4 : (startsWithStr l "-" && !(startsWithStr l "---")) = true
          · rw [if_pos h4, if_pos h4]
            rw [show (⟨(exHunks ls (some hk) n).hunks, (exHunks ls (some hk) n).adds,
              n :: (exHunks ls (some hk) n).dels⟩ : ExtractOut).dels
                = n :: (exHunks ls (some hk) n).dels from rfl]
            rw [ih (some hk) n]
            rfl
          · rw [if_neg h4, if_neg h4]
            by_cases h5 : (!(startsWithStr l "---") && !(startsWithStr l "+++")) = true
            · rw [if_pos h5, if_pos h5]
              exact ih (some hk) (n + 1)
            · rw [if_neg h5, if_neg h5]
              exact ih (some hk) n

/-- C5 counterexample: the patch `@@ -5,2 +10,1 @@` deletes old-file
line 5, but `extractChangedContent` records the deletion as 10 (the
new-file counter), not as the old-file line number 5. -/
theorem claimC5_counterexample :
    (extractChangedContent "@@ -5,2 +10,1 @@\n-x\n y").2.deletions = [10]
    ∧ specDeletionOldLines "@@ -5,2 +10,1 @@\n-x\n y" = [5]
    ∧ (extractChangedContent "@@ -5,2 +10,1 @@\n-x\n y").2.deletions
        ≠ specDeletionOldLines "@@ -5,2 +10,1 @@\n-x\n y" := by decide

/-- C5 amended: every entry of `changeMap.deletions` is the running
NEW-file line counter value at that deletion (the hunk header's
new-start advanced by prior additions and context lines; deletions do
not advance it), not the old-file line number. -/
theorem claimC5_deletions_new_numbering (patch : String) :
    (extractChangedContent patch).2.deletions = specDeletionNewLines patch := by
  show (exHunks (splitNl patch) none 0).dels = specDelNewWalk (splitNl patch) false 0
  exact exHunks_dels (splitNl patch) none 0

/-! ## Changed-line check and finding acceptance
(code-review-service variant with `isChangedLine`, unnamed part_003) -/

/-- The per-file unit of work (`EnhancedPRFile`), restricted to the
fields `isChangedLine` consumes; `Option` models absent/undefined
fields. -/
structure EnhancedPRFile where
  filename : String
  patch : Option String
  changedContent : Option String
  changeMap : Option ChangeMap
deriving DecidableEq

/-- A produced review comment (`CodeReviewComment`): `line` and
`position` are optional JavaScript numbers (integers in every modelled
path), `confidence` is the assigned non-negative confidence. -/
structure CodeReviewComment where
  path : String
  line : Option Int
  position : Option Int
  body : String
  confidence : Nat
deriving DecidableEq

/-- `true` iff the line contains a hunk-header match (such lines end a
hunk's content in the patch-based fallback of `isChangedLine`). -/
def isHeaderLine (l : String) : Bool := (matchHunkHeader l).isSome

/-- Number of added lines (`+`, not `+++`) before the next header line:
the `addedLines` count of one hunk's content in `isChangedLine`. -/
def countAddsUntilHeader : List String → Nat
  | [] => 0
  | l :: ls =>
    if isHeaderLine l then 0
    else (if startsWithStr l "+" && !(startsWithStr l "+++") then 1 else 0)
      + countAddsUntilHeader ls

/-- The patch-based fallback of `isChangedLine`: some hunk of the patch
satisfies `hunkStart ≤ n < hunkStart + addedLines`. -/
def patchRangeHas (n : Nat) : List String → Bool
  | [] => false
  | l :: ls =>
    (match matchHunkHeader l with
     | some s => decide (s ≤ n) && decide (n < s + countAddsUntilHeader ls)
     | none => false)
    || patchRangeHas n ls

/-- The changed-content fallback of `isChangedLine`: the multiline regex
`^${lineNumber}:\s` matches some line of `changedContent`. -/
def changedContentHasLine (n : Nat) (cc : String) : Bool :=
  (splitNl cc).any (fun l =>
    startsWithStr l (Nat.repr n ++ ":")
      && (match l.data.drop (Nat.repr n ++ ":").data.length with
          | c :: _ => isJsWhite c
          | [] => false))

/-- The changed-content / default layers of `isChangedLine` (an empty
`changedContent` string is falsy in JavaScript and falls through to the
conservative `true`). -/
def isChangedLineLayer3 (file : EnhancedPRFile) (n : Nat) : Bool :=
  match file.changedContent with
  | some cc => if cc = "" then true else changedContentHasLine n cc
  | none => true

/-- `isChangedLine(file, lineNumber)` (part_003, 267-317): the
`changeMap.additions` membership when a change map is present, else the
patch hunk-range fallback (an empty patch string is falsy), else the
changed-content marker search, else `true`. -/
def isChangedLine (file : EnhancedPRFile) (n : Nat) : Bool :=
  match file.changeMap with
  | some cm => cm.additions.contains n
  | none =>
    match file.patch with
    | some p =>
      if p = "" then isChangedLineLayer3 file n
      else patchRangeHas n (splitNl p)
    | none => isChangedLineLayer3 file n

/-- Model of JavaScript `String.prototype.trim()`. -/
def jsTrim (s : String) : String :=
  ⟨((s.data.dropWhile isJsWhite).reverse.dropWhile isJsWhite).reverse⟩

/-- The push decision of `parseReviewFeedback` (part_003, 197-217) for
one extracted candidate `Line <lineNumber>: <raw>`: kept only when the
trimmed comment is non-empty, the line number is positive and
`isChangedLine` confirms the line; the kept comment carries the fixed
confidence 100. -/
def acceptFinding (file : EnhancedPRFile) (lineNumber : Nat) (raw : String) :
    Option CodeReviewComment :=
  let c := jsTrim raw
  if c ≠ "" ∧ 0 < lineNumber then
    if isChangedLine file lineNumber then
      some ⟨file.filename, some (lineNumber : Int), some (lineNumber : Int), c, 100⟩
    else none
  else none

/-- All comments produced by `parseReviewFeedback` from the model's
candidate findings (line number, raw comment text). -/
def parseReviewFeedbackComments (file : EnhancedPRFile)
    (cands : List (Nat × String)) : List CodeReviewComment :=
  cands.filterMap (fun cd => acceptFinding file cd.1 cd.2)

/-- C2: when the file has a change map and `n` is not among its
additions, `isChangedLine` rejects `n` and no produced comment — for
any candidate list, hence regardless of any confidence value — targets
line `n`; such a finding therefore never reaches the batched
review-creation call, which only receives produced comments. -/
theorem acceptFinding_eq_some (file : EnhancedPRFile) (m : Nat) (raw : String)
    (c : CodeReviewComment) (h : acceptFinding file m raw = some c) :
    c.line = some (m : Int) ∧ isChangedLine file m = true := by
  unfold acceptFinding at h
  dsimp only at h
  by_cases h1 : jsTrim raw ≠ "" ∧ 0 < m
  · rw [if_pos h1] at h
    by_cases h2 : isChangedLine file m = true
    · rw [if_pos h2] at h
      cases h
      exact ⟨rfl, h2⟩
    · rw [if_neg h2] at h
      cases h
  · rw [if_neg h1] at h
    cases h

theorem claimC2_unchanged_line_dropped (file : EnhancedPRFile) (cm : ChangeMap)
    (cands : List (Nat × String)) (n : Nat)
    (hcm : file.changeMap = some cm)
    (hn : cm.additions.contains n = false) :
    isChangedLine file n = false
    ∧ (parseReviewFeedbackComments file cands).all
        (fun c => !(c.line == some (n : Int))) = true := by
  have hicl : isChangedLine file n = false := by
    unfold isChangedLine
    rw [hcm]
    exact hn
  refine ⟨hicl, ?_⟩
  rw [List.all_eq_true]
  intro c hc
  rcases List.mem_filterMap.1 hc with ⟨cd, _, hacc⟩
  obtain ⟨hline, hch⟩ := acceptFinding_eq_some file cd.1 cd.2 c hacc
  have hne : c.line ≠ some (n : Int) := by
    rw [hline]
    intro hceq
    injection hceq with hceq'
    have hceq2 : cd.1 = n := by exact_mod_cast hceq'
    rw [hceq2] at hch
    simp [hicl] at hch
  simpa using hne

/-- The Scenario B file: additions `{3,4,5}`. -/
def scenarioBFile : EnhancedPRFile :=
  ⟨"f.ts", none, none, some ⟨[3, 4, 5], []⟩⟩

example : parseReviewFeedbackComments scenarioBFile [(10, "x")] = [] := by decide

/-- C2 witness: Scenario B — the finding on line 10 with additions
`{3,4,5}` is rejected by `isChangedLine` and never appears among the
produced comments. -/
theorem claimC2_witness :
    isChangedLine scenarioBFile 10 = false
    ∧ (parseReviewFeedbackComments scenarioBFile [(10, "x")]).all
        (fun c => !(c.line == some ((10 : Nat) : Int))) = true :=
  claimC2_unchanged_line_dropped scenarioBFile ⟨[3, 4, 5], []⟩ [(10, "x")] 10 rfl
    (by decide)

/-! ## Model response parsing (`analyzeCodeChanges`, openai-service.ts
second variant, 455-496) -/

/-- The shape of one validated model finding (`FileCodeReviewComment`):
numeric `startLine`/`endLine`, string `comment`. -/
structure FileCodeReviewComment where
  startLine : Int
  endLine : Int
  comment : String
deriving DecidableEq

/-- JSON values, modelling the result of the runtime's `JSON.parse`
(numbers restricted to integers — the analysed inputs contain no
fractions or exponents). -/
inductive Jval where
  | jnull
  | jbool (b : Bool)
  | jnum (n : Int)
  | jstr (s : String)
  | jarr (xs : List Jval)
  | jobj (kvs : List (String × Jval))

/-- JSON insignificant whitespace. -/
def isJsonWs (c : Char) : Bool := c = ' ' || c = '\t' || c = '\n' || c = '\r'

/-- JSON string escapes (`\uXXXX` is not needed by the analysed inputs
and is rejected by this model). -/
def jsonEscape (c : Char) : Option Char :=
  if c = '"' then some '"'
  else if c = '\\' then some '\\'
  else if c = '/' then some '/'
  else if c = 'n' then some '\n'
  else if c = 't' then some '\t'
  else if c = 'r' then some '\r'
  else if c = 'b' then some (Char.ofNat 8)
  else if c = 'f' then some (Char.ofNat 12)
  else none

/-- Parse a JSON string body (after the opening quote). -/
def parseJstringBody : Nat → List Char → List Char → Option (String × List Char)
  | 0, _, _ => none
  | fuel + 1, cs, acc =>
    match cs with
    | '"' :: rest => some (⟨acc.reverse⟩, rest)
    | '\\' :: c :: rest =>
      match jsonEscape c with
      | some e => parseJstringBody fuel rest (e :: acc)
      | none => none
    | c :: rest => parseJstringBody fuel rest (c :: acc)
    | [] => none

/-- Parse a JSON integer literal (fractions/exponents rejected: not
needed for the analysed inputs). -/
def parseJnum (cs : List Char) : Option (Jval × List Char) :=
  let neg := match cs with
    | '-' :: _ => true
    | _ => false
  let cs1 := if neg then cs.drop 1 else cs
  let ds := cs1.takeWhile isDigitCh
  if ds.isEmpty then none
  else
    match cs1.drop ds.length with
    | '.' :: _ => none
    | 'e' :: _ => none
    | 'E' :: _ => none
    | rest =>
      some (.jnum (if neg then -(digitsVal ds : Int) else (digitsVal ds : Int)), rest)

mutual

/-- Parse one JSON value (leading whitespace skipped). -/
def parseJval : Nat → List Char → Option (Jval × List Char)
  | 0, _ => none
  | fuel + 1, cs =>
    match cs.dropWhile isJsonWs with
    | 'n' :: 'u' :: 'l' :: 'l' :: rest => some (.jnull, rest)
    | 't' :: 'r' :: 'u' :: 'e' :: rest => some (.jbool true, rest)
    | 'f' :: 'a' :: 'l' :: 's' :: 'e' :: rest => some (.jbool false, rest)
    | '"' :: rest =>
      match parseJstringBody (fuel + 1) rest [] with
      | some (s, rest') => some (.jstr s, rest')
      | none => none
    | '[' :: rest =>
      (match rest.dropWhile isJsonWs with
       | ']' :: rest' => some (.jarr [], rest')
       | _ =>
         match parseJarrItems fuel rest with
         | some (xs, rest') => some (.jarr xs, rest')
         | none => none)
    | '\x7b' :: rest =>
      (match rest.dropWhile isJsonWs with
       | '\x7d' :: rest' => some (.jobj [], rest')
       | _ =>
         match parseJobjItems fuel rest with
         | some (kvs, rest') => some (.jobj kvs, rest')
         | none => none)
    | cs' => parseJnum cs'

/-- Parse the comma-separated items of a non-empty JSON array (after
`[`). -/
def parseJarrItems : Nat → List Char → Option (List Jval × List Char)
  | 0, _ => none
  | fuel + 1, cs =>
    match parseJval fuel cs with
    | some (v, rest) =>
      match rest.dropWhile isJsonWs with
      | ',' :: rest' =>
        (match parseJarrItems fuel rest' with
         | some (vs, rest'') => some (v :: vs, rest'')
         | none => none)
      | ']' :: rest' => some ([v], rest')
      | _ => none
    | none => none

/-- Parse the members of a non-empty JSON object (after the opening
brace). -/
def parseJobjItems : Nat → List Char → Option (List (String × Jval) × List Char)
  | 0, _ => none
  | fuel + 1, cs =>
    match cs.dropWhile isJsonWs with
    | '"' :: rest =>
      (match parseJstringBody (fuel + 1) rest [] with
       | some (k, rest1) =>
         (match rest1.dropWhile isJsonWs with
          | ':' :: rest2 =>
            (match parseJval fuel rest2 with
             | some (v, rest3) =>
               (match rest3.dropWhile isJsonWs with
                | ',' :: rest4 =>
                  (match parseJobjItems fuel rest4 with
                   | some (kvs, rest5) => some ((k, v) :: kvs, rest5)
                   | none => none)
                | '\x7d' :: rest4 => some ([(k, v)], rest4)
                | _ => none)
             | none => none)
          | _ => none)
       | none => none)
    | _ => none

end

/-- Model of `JSON.parse`: parse one value, require only whitespace
after it; `none` models the thrown `SyntaxError`. -/
def jsonParse (s : String) : Option Jval :=
  match parseJval (s.data.length + 1) s.data with
  | some (v, rest) => if (rest.dropWhile isJsonWs).isEmpty then some v else none
  | none => none

example : jsonParse "not json" = none := rfl
example : jsonParse "\x7b\x7d" = some (.jobj []) := rfl
example : jsonParse " null " = some .jnull := rfl
example : jsonParse "[1, -2]" = some (.jarr [.jnum 1, .jnum (-2)]) := rfl

/-- One pass of the global replace
`responseContent.replace(/```(?:json)?\n?/g, '')`. -/
def stripTickRuns : Nat → List Char → List Char
  | 0, _ => []
  | fuel + 1, cs =>
    match cs with
    | '`' :: '`' :: '`' :: rest =>
      let r1 := match rest with
        | 'j' :: 's' :: 'o' :: 'n' :: r => r
        | _ => rest
      let r2 := match r1 with
        | '\n' :: r => r
        | _ => r1
      stripTickRuns fuel r2
    | c :: rest => c :: stripTickRuns fuel rest
    | [] => []

/-- The anchored replace `.replace(/\n?```$/g, '')`. -/
def stripTrailingFence (cs : List Char) : List Char :=
  if ['`', '`', '`', '\n'].isPrefixOf cs.reverse then (cs.reverse.drop 4).reverse
  else if ['`', '`', '`'].isPrefixOf cs.reverse then (cs.reverse.drop 3).reverse
  else cs

/-- The full clean-up of the model response content before `JSON.parse`
(both replaces, then `trim()`). -/
def cleanResponseContent (s : String) : String :=
  jsTrim ⟨stripTrailingFence (stripTickRuns s.data.length s.data)⟩

example : cleanResponseContent "```json\n\x7b\x7d\n```" = "\x7b\x7d" := by decide

/-- First binding of a key in a parsed JSON object (the analysed inputs
have no duplicate keys). -/
def jlookup (kvs : List (String × Jval)) (k : String) : Option Jval :=
  match kvs with
  | [] => none
  | (k', v) :: rest => if k' = k then some v else jlookup rest k

/-- The per-element validation filter of `analyzeCodeChanges`: an object
with numeric `startLine`/`endLine` and string `comment`. -/
def asReviewComment (j : Jval) : Option FileCodeReviewComment :=
  match j with
  | .jobj kvs =>
    (match jlookup kvs "startLine", jlookup kvs "endLine", jlookup kvs "comment" with
     | some (.jnum a), some (.jnum b), some (.jstr c) => some ⟨a, b, c⟩
     | _, _, _ => none)
  | _ => none

/-- The response-parsing step of `analyzeCodeChanges` (openai-service.ts
462-496): strip code fences, `JSON.parse` (a parse failure is caught
and yields `[]`), require an object whose `comments` is an array, and
keep the structurally valid elements. -/
def parseAnalyzeResponse (content : String) : List FileCodeReviewComment :=
  match jsonParse (cleanResponseContent content) with
  | none => []
  | some v =>
    match v with
    | .jobj kvs =>
      (match jlookup kvs "comments" with
       | some (.jarr xs) => xs.filterMap asReviewComment
       | _ => [])
    | _ => []

example :
    parseAnalyzeResponse
      "\x7b\"comments\": [\x7b\"startLine\": 3, \"endLine\": 4, \"comment\": \"c\"\x7d]\x7d"
      = [⟨3, 4, "c"⟩] := by decide

/-- C7: the three malformed model outputs — non-JSON text, a fenced
empty object, and an object whose `comments` field is a string — each
yield an empty findings list (the model of the caught-and-degraded
parse), not a failure. -/
theorem claimC7_malformed_output_degrades :
    parseAnalyzeResponse "not json" = []
    ∧ parseAnalyzeResponse "```json\n\x7b\x7d\n```" = []
    ∧ parseAnalyzeResponse "\x7b\"comments\": \"not-an-array\"\x7d" = [] := by
  decide

/-! ## Token usage counters (openai-service.ts 455-460,
github-service.ts 700-735) -/

/-- The usage block of one model response
(`{promptTokens, completionTokens}`). -/
structure TokenUsage where
  promptTokens : Nat
  completionTokens : Nat
deriving DecidableEq

/-- The service's running counters
(`totalInputTokens` / `totalOutputTokens`, reset to 0 at start). -/
structure TokenCounters where
  totalInputTokens : Nat
  totalOutputTokens : Nat
deriving DecidableEq

/-- The per-call update `if (response.usage) { totalInputTokens +=
usage.prompt_tokens; totalOutputTokens += usage.completion_tokens }`. -/
def trackUsage (st : TokenCounters) (usage : Option TokenUsage) : TokenCounters :=
  match usage with
  | some u =>
    ⟨st.totalInputTokens + u.promptTokens, st.totalOutputTokens + u.completionTokens⟩
  | none => st

/-- Counters after a sequence of model calls, starting from zero. -/
def runTokenCounters (usages : List (Option TokenUsage)) : TokenCounters :=
  usages.foldl trackUsage ⟨0, 0⟩

/-- `createSummaryComment`'s `totalTokens = totalInputTokens +
totalOutputTokens`. -/
def summaryTotalTokens (st : TokenCounters) : Nat :=
  st.totalInputTokens + st.totalOutputTokens

theorem foldl_trackUsage (us : List (Option TokenUsage)) :
    ∀ st : TokenCounters,
      (us.foldl trackUsage st).totalInputTokens
          = st.totalInputTokens
            + (us.map (fun u => (u.map (fun x => x.promptTokens)).getD 0)).sum
      ∧ (us.foldl trackUsage st).totalOutputTokens
          = st.totalOutputTokens
            + (us.map (fun u => (u.map (fun x => x.completionTokens)).getD 0)).sum := by
  induction us with
  | nil => intro st; simp
  | cons u us ih =>
    intro st
    cases u with
    | none => simpa [trackUsage] using ih st
    | some x =>
      have := ih ⟨st.totalInputTokens + x.promptTokens,
        st.totalOutputTokens + x.completionTokens⟩
      simp only [List.foldl_cons, trackUsage, List.map_cons, List.sum_cons,
        Option.map_some', Option.getD_some] at this ⊢
      omega

/-- C8: the counters are exact integer sums incremented once per model
call — Scenario D's two calls yield input 200, output 50, summary total
250; in general the counters equal the sums of the reported prompt and
completion tokens. -/
theorem claimC8_token_sums :
    runTokenCounters [some ⟨120, 40⟩, some ⟨80, 10⟩] = ⟨200, 50⟩
    ∧ summaryTotalTokens (runTokenCounters [some ⟨120, 40⟩, some ⟨80, 10⟩]) = 250
    ∧ ∀ us : List (Option TokenUsage),
        (runTokenCounters us).totalInputTokens
            = (us.map (fun u => (u.map (fun x => x.promptTokens)).getD 0)).sum
        ∧ (runTokenCounters us).totalOutputTokens
            = (us.map (fun u => (u.map (fun x => x.completionTokens)).getD 0)).sum := by
  refine ⟨by decide, by decide, ?_⟩
  intro us
  have := foldl_trackUsage us ⟨0, 0⟩
  simpa [runTokenCounters] using this

/-! ## Fixed confidence and the comment threshold
(code-review-service.ts 538-559, openai-service.ts 313-332,
github-service.ts 604-611) -/

/-- `reviewEnhancedFile`'s mapping of validated model findings to review
comments: every comment gets `confidence: 100` (the source also copies
`endLine`, which is not part of the `CodeReviewComment` interface and
is dropped here; `position` is left unset). -/
def reviewEnhancedFileComments (filename : String)
    (findings : List FileCodeReviewComment) : List CodeReviewComment :=
  findings.map (fun f => ⟨filename, some f.startLine, none, f.comment, 100⟩)

/-- The comment threshold after the constructor default (`50`) and
`migrateLegacyConfig` (overridden only when the configuration carries a
numeric legacy `commentThreshold`). -/
def resolveCommentThreshold (legacyThreshold : Option Int) : Int :=
  match legacyThreshold with
  | some t => t
  | none => 50

/-- The confidence filter at the top of `addReviewComments`
(`comment.confidence >= getCommentThreshold()`). -/
def filterByConfidence (threshold : Int) (comments : List CodeReviewComment) :
    List CodeReviewComment :=
  comments.filter (fun c => threshold ≤ (c.confidence : Int))

/-- C10: every comment produced by the per-file review step carries the
fixed confidence 100, the default comment threshold is 50, and hence
the threshold filter in `addReviewComments` passes every produced
comment through unchanged. -/
theorem claimC10_threshold_filter_noop (filename : String)
    (findings : List FileCodeReviewComment) :
    resolveCommentThreshold none = 50
    ∧ (reviewEnhancedFileComments filename findings).all
        (fun c => c.confidence == 100) = true
    ∧ filterByConfidence (resolveCommentThreshold none)
        (reviewEnhancedFileComments filename findings)
      = reviewEnhancedFileComments filename findings := by
  refine ⟨rfl, ?_, ?_⟩
  · rw [List.all_eq_true]
    intro c hc
    rcases List.mem_map.1 hc with ⟨f, _, rfl⟩
    rfl
  · apply List.filter_eq_self.mpr
    intro c hc
    rcases List.mem_map.1 hc with ⟨f, _, rfl⟩
    rfl

/-! ## Configuration merge (`loadConfig`, config.ts 11-61;
defaults from default-config.ts) -/

/-- A review rule; `includeGlobs` models the `include` field
(`include` is a reserved word in Lean). -/
structure ReviewRule where
  includeGlobs : List String
  prompt : String
deriving DecidableEq

/-- The configuration surface (`CodeReviewConfig`). -/
structure CodeReviewConfig where
  excludeFiles : List String
  rules : List ReviewRule
deriving DecidableEq

/-- The built-in `defaultConfig`. -/
def defaultConfig : CodeReviewConfig :=
  { excludeFiles := ["**/node_modules/**", "**/dist/**", "**/build/**",
      "**/*.test.ts", "**/*.spec.ts", "**/*.min.js"],
    rules :=
      [{ includeGlobs := ["**/*.ts", "**/*.tsx"],
         prompt := "Review this TypeScript code focusing on type safety, proper interface usage, and adherence to TypeScript best practices. Look for potential null/undefined issues, incorrect typing, and opportunities to improve type definitions." },
       { includeGlobs := ["**/*.js", "**/*.jsx"],
         prompt := "Review this JavaScript code focusing on potential runtime errors, variable scope issues, and modern JavaScript practices. Check for proper error handling, async/await usage, and potential memory leaks." },
       { includeGlobs := ["**/*.py"],
         prompt := "Review this Python code focusing on PEP 8 compliance, proper exception handling, and Pythonic approaches. Check for inefficient algorithms, unnecessary complexity, and security vulnerabilities like SQL injection or unsafe eval." }] }

/-- Lexicographic code-unit comparison of two character lists
(JavaScript's default string comparison; the analysed patterns are
ASCII, where code-unit and code-point order agree). -/
def ltChars : List Char → List Char → Bool
  | [], [] => false
  | [], _ :: _ => true
  | _ :: _, [] => false
  | a :: as, b :: bs => if a < b then true else if b < a then false else ltChars as bs

/-- JavaScript `a < b` on strings. -/
def ltStr (a b : String) : Bool := ltChars a.data b.data

/-- Insert a string into an ascending list (strictly before the first
strictly larger element). -/
def insertStr (x : String) : List String → List String
  | [] => [x]
  | y :: ys => if !(ltStr y x) then x :: y :: ys else y :: insertStr x ys

/-- JavaScript `Array.prototype.sort()` on string arrays: ascending
code-unit order (the analysed patterns are ASCII). String comparison
is a total order, so the sorted arrangement is determined by the
array's multiset of strings and any sorting algorithm models it;
insertion sort is used so the kernel can evaluate it. -/
def sortStrings (l : List String) : List String :=
  l.foldr insertStr []

theorem insertStr_perm (x : String) :
    ∀ l : List String, (insertStr x l).Perm (x :: l) := by
  intro l
  induction l with
  | nil => exact List.Perm.refl _
  | cons y ys ih =>
    rw [insertStr]
    split
    · exact List.Perm.refl _
    · exact (List.Perm.cons y ih).trans (List.Perm.swap x y ys)

theorem sortStrings_perm (l : List String) : (sortStrings l).Perm l := by
  induction l with
  | nil => exact List.Perm.refl _
  | cons a l ih =>
    exact (insertStr_perm a (sortStrings l)).trans (List.Perm.cons a ih)

example : sortStrings ["zzz", "aaa", "mmm"] = ["aaa", "mmm", "zzz"] := by decide

/-- Pattern clean-up `pattern.trim().replace(/^-\s*/, '')`. -/
def cleanPattern (p : String) : String :=
  let t := jsTrim p
  match t.data with
  | '-' :: rest => ⟨rest.dropWhile isJsWhite⟩
  | _ => t

example : cleanPattern "  - *.log " = "*.log" := by decide
example : cleanPattern "a-b" = "a-b" := by decide

/-- A rule after the in-place `include.sort()`: include list sorted,
prompt untouched. -/
def sortRule (r : ReviewRule) : ReviewRule :=
  { includeGlobs := sortStrings r.includeGlobs, prompt := r.prompt }

/-- Whether the `.some` overlap scan of some default rule reaches the
user rule preceded (in declaration order) by `pre`: true iff for some
default rule no earlier user rule matches it. Each comparison's
outcome is invariant under the prior in-place sorts — both sides are
`JSON.stringify`-compared after sorting, and sorting is determined by
the array's multiset of strings — so the scans are modelled over the
original include lists. -/
def userRuleMutated (defaults : List ReviewRule) (pre : List ReviewRule) : Bool :=
  defaults.any (fun d =>
    !(pre.any (fun u => sortStrings u.includeGlobs == sortStrings d.includeGlobs)))

/-- The user rules as they sit in the merged configuration: the spread
copies object references, and every user rule visited by an overlap
scan has had `include.sort()` applied in place. -/
def mutateUserRules (defaults : List ReviewRule) :
    List ReviewRule → List ReviewRule → List ReviewRule
  | _, [] => []
  | pre, u :: rest =>
    (if userRuleMutated defaults pre then sortRule u else u)
      :: mutateUserRules defaults (pre ++ [u]) rest

/-- The merge of `loadConfig` (config.ts 28-54): user rules first —
with the in-place `Array.prototype.sort()` mutation of the
`JSON.stringify(include.sort())` comparison applied (config.ts 35-38) —
then the default rules whose sorted include list coincides with no
user rule's (modelled as list equality of the sorted lists;
`JSON.stringify` is injective on string arrays). A kept default rule's
include list is likewise sorted in place, except when the user rule
list is empty (`.some` on an empty array never evaluates the
comparison). User exclude patterns are cleaned, then the default
exclude patterns not literally present among the raw user patterns,
cleaned. An absent user field (`userConfig.rules || []`) is the empty
list. -/
def mergeConfig (user : CodeReviewConfig) : CodeReviewConfig :=
  { rules := mutateUserRules defaultConfig.rules [] user.rules
      ++ (defaultConfig.rules.filter (fun d =>
            !(user.rules.any (fun u =>
              sortStrings u.includeGlobs == sortStrings d.includeGlobs)))).map
          (fun d => if user.rules.isEmpty then d else sortRule d),
    excludeFiles := user.excludeFiles.map cleanPattern
      ++ (defaultConfig.excludeFiles.filter
          (fun p => !(user.excludeFiles.contains p))).map cleanPattern }

/-- C9 counterexample: with user exclude patterns `["a", "a"]` the
merged exclude list still contains `"a"` twice — duplicates are not
removed; and a user rule whose include list `["zzz", "aaa"]` is
unsorted does not come back unchanged — the comparison's in-place sort
reorders it. -/
theorem claimC9_counterexample :
    ¬ (mergeConfig ⟨["a", "a"], []⟩).excludeFiles.Nodup
    ∧ (mergeConfig ⟨[], [⟨["zzz", "aaa"], "p"⟩]⟩).rules.take 1
        ≠ [(⟨["zzz", "aaa"], "p"⟩ : ReviewRule)] := by decide

theorem mutateUserRules_length (defaults : List ReviewRule) :
    ∀ (us pre : List ReviewRule), (mutateUserRules defaults pre us).length = us.length := by
  intro us
  induction us with
  | nil => intro pre; rfl
  | cons u rest ih =>
    intro pre
    simp [mutateUserRules, ih (pre ++ [u])]

theorem mutateUserRules_forall₂ (defaults : List ReviewRule) :
    ∀ (us pre : List ReviewRule),
      List.Forall₂ (fun m u => m.prompt = u.prompt
          ∧ m.includeGlobs.Perm u.includeGlobs
          ∧ (m = u ∨ m = sortRule u))
        (mutateUserRules defaults pre us) us := by
  intro us
  induction us with
  | nil => intro pre; exact List.Forall₂.nil
  | cons u rest ih =>
    intro pre
    simp only [mutateUserRules]
    refine List.Forall₂.cons ?_ (ih (pre ++ [u]))
    split
    · exact ⟨rfl, sortStrings_perm u.includeGlobs, Or.inr rfl⟩
    · exact ⟨rfl, List.Perm.refl _, Or.inl rfl⟩

set_option maxRecDepth 4000 in
/-- `sortRule` tells the three built-in default rules apart. -/
theorem sortRule_inj_on_defaults :
    ∀ d' ∈ defaultConfig.rules, ∀ d ∈ defaultConfig.rules,
      sortRule d' = sortRule d → d' = d := by decide

/-- C9 amended: the merged configuration keeps the user rules in place
as a prefix with prompts unchanged and include lists equal up to
reordering (each prefix rule is the original or, when an overlap scan
visited it, the original with its include list sorted in place);
appends exactly those default rules whose include-pattern list equals
no user rule's up to reordering (appended with include sorted when any
user rules exist); and produces an exclude list whose entries are
cleaned (trimmed, leading list-dash stripped) user or default patterns
covering every input pattern — but duplicates are NOT removed (defaults
are only dropped when literally equal to a raw user pattern). -/
theorem claimC9_merge (user : CodeReviewConfig) :
    List.Forall₂ (fun m u => m.prompt = u.prompt
        ∧ m.includeGlobs.Perm u.includeGlobs
        ∧ (m = u ∨ m = sortRule u))
      ((mergeConfig user).rules.take user.rules.length) user.rules
    ∧ (∀ d ∈ defaultConfig.rules,
        ((if user.rules.isEmpty then d else sortRule d)
            ∈ (mergeConfig user).rules.drop user.rules.length
          ↔ ∀ u ∈ user.rules, sortStrings u.includeGlobs ≠ sortStrings d.includeGlobs))
    ∧ (∀ q ∈ (mergeConfig user).excludeFiles,
        ∃ p, (p ∈ user.excludeFiles ∨ p ∈ defaultConfig.excludeFiles)
          ∧ q = cleanPattern p)
    ∧ (∀ p, p ∈ user.excludeFiles ∨ p ∈ defaultConfig.excludeFiles →
        cleanPattern p ∈ (mergeConfig user).excludeFiles) := by
  have hrules : (mergeConfig user).rules
      = mutateUserRules defaultConfig.rules [] user.rules
        ++ (defaultConfig.rules.filter (fun d =>
              !(user.rules.any (fun u =>
                sortStrings u.includeGlobs == sortStrings d.includeGlobs)))).map
            (fun d => if user.rules.isEmpty then d else sortRule d) := rfl
  refine ⟨?_, ?_, ?_, ?_⟩
  · rw [hrules, ← mutateUserRules_length defaultConfig.rules user.rules [],
      List.take_left]
    exact mutateUserRules_forall₂ defaultConfig.rules user.rules []
  · intro d hd
    rw [hrules, ← mutateUserRules_length defaultConfig.rules user.rules [],
      List.drop_left]
    by_cases husr : user.rules.isEmpty
    · have hnil : user.rules = [] := List.isEmpty_iff.1 husr
      rw [if_pos husr]
      constructor
      · intro _ u hu
        rw [hnil] at hu
        cases hu
      · intro _
        apply List.mem_map.2
        refine ⟨d, ?_, by rw [if_pos husr]⟩
        apply List.mem_filter.2
        refine ⟨hd, ?_⟩
        rw [hnil]
        rfl
    · rw [if_neg husr]
      constructor
      · intro hmem
        rcases List.mem_map.1 hmem with ⟨d', hd'f, heq⟩
        have hd'mem := (List.mem_filter.1 hd'f).1
        have hpred := (List.mem_filter.1 hd'f).2
        rw [if_neg husr] at heq
        have hdd : d' = d := sortRule_inj_on_defaults d' hd'mem d hd heq
        subst hdd
        rw [Bool.not_eq_true', List.any_eq_false] at hpred
        intro u hu
        simpa using hpred u hu
      · intro hall
        apply List.mem_map.2
        refine ⟨d, ?_, by rw [if_neg husr]⟩
        apply List.mem_filter.2
        refine ⟨hd, ?_⟩
        rw [Bool.not_eq_true', List.any_eq_false]
        intro u hu
        simpa using hall u hu
  · intro q hq
    rcases List.mem_append.1 hq with h | h
    · rcases List.mem_map.1 h with ⟨p, hp, rfl⟩
      exact ⟨p, Or.inl hp, rfl⟩
    · rcases List.mem_map.1 h with ⟨p, hp, rfl⟩
      exact ⟨p, Or.inr (List.mem_filter.1 hp).1, rfl⟩
  · intro p hp
    rcases hp with hp | hp
    · exact List.mem_append.2 (Or.inl (List.mem_map.2 ⟨p, hp, rfl⟩))
    · by_cases hpu : p ∈ user.excludeFiles
      · exact List.mem_append.2 (Or.inl (List.mem_map.2 ⟨p, hpu, rfl⟩))
      · refine List.mem_append.2 (Or.inr (List.mem_map.2 ⟨p, ?_, rfl⟩))
        rw [List.mem_filter]
        refine ⟨hp, ?_⟩
        rw [Bool.not_eq_true']
        simpa using hpu

/-- A small user configuration: one dashed exclude pattern, one rule
with an unsorted include list. -/
def u9w : CodeReviewConfig := ⟨["- *.log"], [⟨["zzz", "aaa"], "p"⟩]⟩

/-- C9 witness: the amended theorem's exclude-coverage part applied to
`u9w` and its dashed pattern. -/
theorem claimC9_witness :
    cleanPattern "- *.log" ∈ (mergeConfig u9w).excludeFiles :=
  (claimC9_merge u9w).2.2.2 "- *.log" (Or.inl (by decide))
